import Mathlib

/-!
Shallow embedding of the trading-network persistence layer:
`src/config.py` (configuration aggregation and validation) and
`src/firebase_client.py` (singleton Firestore client with batched
market-data writes and ordered/limited reads).

Python dictionaries are embedded as insertion-ordered association lists,
machine-level Firestore handles as natural-number identities, and the
remote store's failure behaviour as an explicit oracle saying at which
commit (if any) the store raises one of the caught error categories.
-/

namespace TradingNet

/-- Field values stored in a Firestore document: strings, integers, and the
`firestore.SERVER_TIMESTAMP` sentinel. -/
inductive Value where
  | str : String → Value
  | int : Int → Value
  | serverTimestamp : Value
  deriving DecidableEq, Repr

/-- A document (Python dict) as an insertion-ordered association list. -/
abbrev Doc := List (String × Value)

/-- Accumulate decimal digits left to right; fails on a non-digit character.
Models the digit-consuming core of Python `int(...)` applied to a string. -/
def decDigitsAux (acc : Nat) : List Char → Option Nat
  | [] => some acc
  | c :: cs => if c.isDigit then decDigitsAux (acc * 10 + (c.toNat - 48)) cs else none

/-- Parse a nonempty run of decimal digits. -/
def decDigits (cs : List Char) : Option Nat :=
  if cs.isEmpty then none else decDigitsAux 0 cs

/-- Model of Python `int(timestamp)` for an optionally signed decimal string
(`src/firebase_client.py:81`): returns `none` exactly when Python raises
`ValueError`. -/
def pyInt (s : String) : Option Int :=
  match s.data with
  | '-' :: cs => (decDigits cs).map (fun n => -(n : Int))
  | '+' :: cs => (decDigits cs).map (fun n => (n : Int))
  | cs => (decDigits cs).map (fun n => (n : Int))

/-- Python dict assignment `d[k] = v`: overwrite the value in place when the
key is present (keeping insertion order), otherwise append the new pair. -/
def dictInsert (d : Doc) (k : String) (v : Value) : Doc :=
  if d.any (fun p => p.1 == k) then
    d.map (fun p => if p.1 == k then (k, v) else p)
  else d ++ [(k, v)]

/-- The document written per record (`src/firebase_client.py:77-83`):
`{**candle_data, 'symbol': symbol, 'timeframe': timeframe,
'timestamp': int(timestamp), 'updated_at': SERVER_TIMESTAMP}` — the candle
payload merged with the four enrichment fields, enrichment winning on
key collision. -/
def enrichDoc (symbol timeframe : String) (n : Int) (candle : Doc) : Doc :=
  dictInsert
    (dictInsert
      (dictInsert
        (dictInsert candle "symbol" (Value.str symbol))
        "timeframe" (Value.str timeframe))
      "timestamp" (Value.int n))
    "updated_at" Value.serverTimestamp

/-- Model of Python `str.replace(pat, rep)` on character lists: replace every
non-overlapping occurrence of `pat`, scanning left to right. The `Nat`
argument is recursion fuel; every step consumes at least one character, so
any fuel at least the list length gives the untruncated result. -/
def pyReplaceAux (pat rep : List Char) : Nat → List Char → List Char
  | _, [] => []
  | 0, l => l
  | fuel + 1, c :: cs =>
    if pat.isPrefixOf (c :: cs) ∧ 1 ≤ pat.length then
      rep ++ pyReplaceAux pat rep fuel (cs.drop (pat.length - 1))
    else
      c :: pyReplaceAux pat rep fuel cs

/-- Model of Python `str.replace` on strings. -/
def pyReplace (s pat rep : String) : String :=
  ⟨pyReplaceAux pat.data rep.data s.data.length s.data⟩

/-- The collection path computed by `write_market_data`
(`src/firebase_client.py:71`):
`f"{config.firebase.collection_prefix}/market_data/{symbol.replace('/', '_')}/{timeframe}"`. -/
def writeCollectionPath (pfx symbol timeframe : String) : String :=
  pfx ++ "/market_data/" ++ pyReplace symbol "/" "_" ++ "/" ++ timeframe

/-- The collection path computed by `read_market_data`
(`src/firebase_client.py:119`), textually the same f-string as the write
path. -/
def readCollectionPath (pfx symbol timeframe : String) : String :=
  pfx ++ "/market_data/" ++ pyReplace symbol "/" "_" ++ "/" ++ timeframe

/-- The spec's words for the path scheme: the symbol with every `/`
replaced by `_`, spliced between the prefix, the literal `market_data`
segment, and the timeframe. -/
def specCharReplace (s : String) : String :=
  ⟨s.data.map (fun c => if c = '/' then '_' else c)⟩

/-- The spec's documented collection path scheme
(`{prefix}/market_data/{symbol with "/"→"_"}/{timeframe}`). -/
def specCollectionPath (pfx symbol timeframe : String) : String :=
  pfx ++ "/market_data/" ++ specCharReplace symbol ++ "/" ++ timeframe

/-- One staged Firestore document write: target collection path, document id
(`str(timestamp)`), and document body. -/
structure MarketWrite where
  path : String
  docId : String
  doc : Doc
  deriving DecidableEq, Repr

/-- How the body of `write_market_data` terminates: normally, by a caught
store exception raised at a `batch.commit()`, or by an uncaught `ValueError`
from `int(timestamp)`. -/
inductive WStatus where
  | ok
  | storeFail
  | typeError
  deriving DecidableEq, Repr

/-- Uncaught Python exception escaping `write_market_data`. -/
inductive PyError where
  | valueError
  deriving DecidableEq, Repr

/-- The loop of `write_market_data` (`src/firebase_client.py:75-92`).
State: remaining dict entries, the staged batch, the list of batches already
committed, and the index of the next commit. `failAt` is the store oracle:
the commit index (if any) at which the store raises one of
`GoogleAPICallError`, `RetryError`, `FirebaseError`. Each entry is staged
(enriched, keyed by `str(timestamp)`); the batch is committed whenever its
size reaches `batch_size`, and a nonempty remainder is committed after the
loop. -/
def writeGo (path symbol timeframe : String) (batch_size : Nat) (failAt : Option Nat) :
    List (String × Doc) → List MarketWrite → List (List MarketWrite) → Nat →
    List (List MarketWrite) × WStatus
  | [], batch, done, idx =>
      if 0 < batch.length then
        if failAt = some idx then (done, .storeFail)
        else (done ++ [batch], .ok)
      else (done, .ok)
  | (ts, candle) :: rest, batch, done, idx =>
      match pyInt ts with
      | none => (done, .typeError)
      | some n =>
        if batch_size ≤ (batch ++ [(⟨path, ts, enrichDoc symbol timeframe n candle⟩ : MarketWrite)]).length then
          if failAt = some idx then (done, .storeFail)
          else
            writeGo path symbol timeframe batch_size failAt rest []
              (done ++ [batch ++ [(⟨path, ts, enrichDoc symbol timeframe n candle⟩ : MarketWrite)]]) (idx + 1)
        else
          writeGo path symbol timeframe batch_size failAt rest
            (batch ++ [(⟨path, ts, enrichDoc symbol timeframe n candle⟩ : MarketWrite)]) done idx

/-- Observable outcome of one `write_market_data` call: the batches the
store committed, the Python-level result (`.ok b` for a returned boolean,
`.error e` for an uncaught exception), the record count logged at info level
on success, whether the error log line ran, and whether the store raised. -/
structure WriteOutcome where
  commits : List (List MarketWrite)
  ret : Except PyError Bool
  logInfo : Option Nat
  logError : Bool
  raisedStore : Bool
  deriving Repr

/-- Model of `FirebaseClient.write_market_data`
(`src/firebase_client.py:53-99`). `data` is the insertion-ordered dict of
timestamp keys to candle payloads; `failAt` is the store-failure oracle.
On normal termination it returns `True` and logs the record count; a caught
store exception logs an error and returns `False`; a `ValueError` from
`int(timestamp)` propagates. -/
def write_market_data (pfx symbol timeframe : String) (data : List (String × Doc))
    (batch_size : Nat) (failAt : Option Nat) : WriteOutcome :=
  let path := writeCollectionPath pfx symbol timeframe
  let r := writeGo path symbol timeframe batch_size failAt data [] [] 0
  match r.2 with
  | .ok => ⟨r.1, .ok true, some data.length, false, false⟩
  | .storeFail => ⟨r.1, .ok false, none, true, true⟩
  | .typeError => ⟨r.1, .error .valueError, none, false, false⟩

/-- Pure chunking skeleton of the write loop: the sequence of commits issued
when nothing fails, carrying the staged batch as accumulator. -/
def commitsAux (b : Nat) : List α → List α → List (List α)
  | [], cur => if 0 < cur.length then [cur] else []
  | e :: rest, cur =>
      if b ≤ (cur ++ [e]).length then (cur ++ [e]) :: commitsAux b rest []
      else commitsAux b rest (cur ++ [e])

/-- The batching of a document sequence exactly as the write loop commits
it. -/
def pyBatches (l : List α) (b : Nat) : List (List α) :=
  commitsAux b l []

/-- The staged write for one dict entry, as a total function (the parse
result defaults to `0`; the loop only uses it when the parse succeeded). -/
def stageWrite (path symbol timeframe : String) (tc : String × Doc) : MarketWrite :=
  ⟨path, tc.1, enrichDoc symbol timeframe ((pyInt tc.1).getD 0) tc.2⟩

/-- Integer value of a document field, as the Firestore ordering key for
`order_by` queries over integer-valued fields (such as `timestamp`);
documents without the field sort with key `0`. -/
def fieldInt (f : String) (d : Doc) : Int :=
  match d.lookup f with
  | some (Value.int n) => n
  | _ => 0

/-- Descending comparison on the `order_by` field, the order requested by
`query.order_by(order_by, direction=firestore.Query.DESCENDING)`
(`src/firebase_client.py:123`). -/
def fieldDesc (f : String) (d1 d2 : Doc) : Prop :=
  fieldInt f d2 ≤ fieldInt f d1

instance (f : String) : DecidableRel (fieldDesc f) :=
  fun d1 d2 => Int.decLe (fieldInt f d2) (fieldInt f d1)

/-- Modelled from the spec: `FirebaseClient.read_market_data`
(`src/firebase_client.py:101-123`). The source file is truncated right
after building the query (same collection path as the write side, then
descending order on `order_by`, then `.limit(limit)`); the code that runs
the query and returns the documents is missing, so the returned sequence is
modelled from spec §4.3: the stored documents of the collection, sorted
descending on the ordering field and capped at `limit`. `store` maps each
collection path to its stored documents. -/
def read_market_data (store : String → List Doc) (pfx symbol timeframe : String)
    (limit : Nat) (order_by : String) : List Doc :=
  (List.insertionSort (fieldDesc order_by) (store (readCollectionPath pfx symbol timeframe))).take limit

/-- Warnings emitted by `Config._validate` (`src/config.py:63-69`). -/
inductive ConfigWarning where
  | credMissing
  | apiKeysMissing
  deriving DecidableEq, Repr

/-- Python truthiness of an optional string: `None` and `""` are falsy. -/
def truthy : Option String → Bool
  | none => false
  | some s => !s.isEmpty

/-- Model of `Config._validate` (`src/config.py:63-69`): warn when the
credential file does not exist, warn when either exchange API credential is
absent. It is a total function into a warning list — validation never
raises. -/
def config_validate (credExists : Bool) (api_key api_secret : Option String) :
    List ConfigWarning :=
  (if !credExists then [ConfigWarning.credMissing] else []) ++
  (if !truthy api_key || !truthy api_secret then [ConfigWarning.apiKeysMissing] else [])

/-- One `FirebaseClient` instance: its allocation identity (from
`super().__new__`) and its `_client` slot, `none` until `_initialize`
assigns `firestore.client()` (the class attribute `_client = None` is the
fallback). -/
structure FInstance where
  id : Nat
  clientSlot : Option Nat
  deriving DecidableEq, Repr

/-- Process-wide state for the singleton machinery: the `FirebaseClient._instance`
class slot, whether `firebase_admin._apps` is nonempty, fresh counters for
allocation identities and Firestore handles, and how many times
`_initialize` has run. -/
structure FCState where
  inst : Option FInstance
  appsInit : Bool
  nextId : Nat
  nextHandle : Nat
  initCalls : Nat
  deriving DecidableEq, Repr

/-- Exception raised by `FirebaseClient._initialize` on a missing or
malformed credential file. -/
inductive ConnErr where
  | connectionError
  deriving DecidableEq, Repr

/-- Exception raised by the `client` property when `_client` is unset. -/
inductive RtErr where
  | runtimeError
  deriving DecidableEq, Repr

/-- Model of `FirebaseClient.__new__` plus `_initialize`
(`src/firebase_client.py:21-44`). `credOk` says whether
`credentials.Certificate(cred_path)` succeeds (the file exists and is
well-formed). When `_instance` is already set, it is returned untouched.
Otherwise the fresh instance is stored in `_instance` BEFORE `_initialize`
runs; `_initialize` skips app initialization when `firebase_admin._apps`
is already nonempty, acquires a Firestore handle on success, and on a bad
credential file raises `ConnectionError` — leaving the stored instance
with an empty `_client` slot. -/
def fc_new (credOk : Bool) (s : FCState) : FCState × Except ConnErr FInstance :=
  match s.inst with
  | some i => (s, .ok i)
  | none =>
      match s.appsInit, credOk with
      | true, _ =>
        (⟨some ⟨s.nextId, some s.nextHandle⟩, true, s.nextId + 1, s.nextHandle + 1,
          s.initCalls + 1⟩, .ok ⟨s.nextId, some s.nextHandle⟩)
      | false, true =>
        (⟨some ⟨s.nextId, some s.nextHandle⟩, true, s.nextId + 1, s.nextHandle + 1,
          s.initCalls + 1⟩, .ok ⟨s.nextId, some s.nextHandle⟩)
      | false, false =>
        (⟨some ⟨s.nextId, none⟩, false, s.nextId + 1, s.nextHandle,
          s.initCalls + 1⟩, .error .connectionError)

/-- Model of the `client` property (`src/firebase_client.py:46-51`): raise
`RuntimeError` when `_client` is unset, otherwise return the handle. -/
def clientProperty (i : FInstance) : Except RtErr Nat :=
  match i.clientSlot with
  | none => .error .runtimeError
  | some h => .ok h

/-! ### Helper lemmas: association-list lookup under `dictInsert` -/

theorem lookup_cons_ite (k a : String) (b : Value) (d : Doc) :
    ((a, b) :: d).lookup k = if k == a then some b else d.lookup k := by
  rw [List.lookup_cons]
  cases h : k == a <;> simp [h]

theorem lookup_map_overwrite (k k' : String) (v : Value) (h : k' ≠ k) (d : Doc) :
    (d.map (fun p => if p.1 == k then (k, v) else p)).lookup k' = d.lookup k' := by
  induction d with
  | nil => rfl
  | cons p d ih =>
    obtain ⟨a, b⟩ := p
    rw [List.map_cons]
    by_cases ha : a = k
    · subst ha
      rw [if_pos (beq_self_eq_true a), lookup_cons_ite, lookup_cons_ite,
        if_neg (by simp [h]), if_neg (by simp [h])]
      exact ih
    · rw [if_neg (by simp [ha]), lookup_cons_ite, lookup_cons_ite]
      by_cases hka : (k' == a) = true
      · rw [if_pos hka, if_pos hka]
      · rw [if_neg hka, if_neg hka]
        exact ih

theorem lookup_append_single_ne (k k' : String) (v : Value) (h : k' ≠ k) (d : Doc) :
    (d ++ [(k, v)]).lookup k' = d.lookup k' := by
  induction d with
  | nil =>
    rw [List.nil_append, lookup_cons_ite, if_neg (by simp [h])]
  | cons p d ih =>
    obtain ⟨a, b⟩ := p
    rw [List.cons_append, lookup_cons_ite, lookup_cons_ite]
    by_cases hka : (k' == a) = true
    · rw [if_pos hka, if_pos hka]
    · rw [if_neg hka, if_neg hka]
      exact ih

theorem lookup_dictInsert_ne (d : Doc) (k k' : String) (v : Value) (h : k' ≠ k) :
    (dictInsert d k v).lookup k' = d.lookup k' := by
  unfold dictInsert
  by_cases hany : d.any (fun p => p.1 == k)
  · rw [if_pos hany]
    exact lookup_map_overwrite k k' v h d
  · rw [if_neg hany]
    exact lookup_append_single_ne k k' v h d

theorem lookup_map_overwrite_self (k : String) (v : Value) (d : Doc)
    (h : (d.any (fun p => p.1 == k)) = true) :
    (d.map (fun p => if p.1 == k then (k, v) else p)).lookup k = some v := by
  induction d with
  | nil => simp at h
  | cons p d ih =>
    obtain ⟨a, b⟩ := p
    rw [List.map_cons]
    by_cases ha : a = k
    · subst ha
      rw [if_pos (beq_self_eq_true a), lookup_cons_ite, if_pos (beq_self_eq_true a)]
    · have hrest : (d.any (fun p => p.1 == k)) = true := by
        simpa [beq_false_of_ne ha] using h
      rw [if_neg (by simp [ha]), lookup_cons_ite, if_neg (by simp [Ne.symm ha])]
      exact ih hrest

theorem lookup_append_single_self (k : String) (v : Value) (d : Doc)
    (h : (d.any (fun p => p.1 == k)) = false) :
    (d ++ [(k, v)]).lookup k = some v := by
  induction d with
  | nil =>
    rw [List.nil_append, lookup_cons_ite, if_pos (beq_self_eq_true k)]
  | cons p d ih =>
    obtain ⟨a, b⟩ := p
    simp only [List.any_cons, Bool.or_eq_false_iff] at h
    have hak : a ≠ k := by
      intro hk
      rw [hk] at h
      simp at h
    rw [List.cons_append, lookup_cons_ite, if_neg (by simp [Ne.symm hak])]
    exact ih h.2

theorem lookup_dictInsert_self (d : Doc) (k : String) (v : Value) :
    (dictInsert d k v).lookup k = some v := by
  unfold dictInsert
  by_cases hany : d.any (fun p => p.1 == k)
  · rw [if_pos hany]
    exact lookup_map_overwrite_self k v d hany
  · rw [if_neg hany]
    exact lookup_append_single_self k v d (Bool.not_eq_true _ ▸ hany)

theorem isSome_lookup_dictInsert (d : Doc) (k k' : String) (v : Value) :
    ((dictInsert d k v).lookup k').isSome = true ↔
      (k' = k ∨ (d.lookup k').isSome = true) := by
  by_cases hk : k' = k
  · subst hk
    simp [lookup_dictInsert_self]
  · rw [lookup_dictInsert_ne d k k' v hk]
    simp [hk]

theorem enrichDoc_lookup_symbol (symbol timeframe : String) (n : Int) (candle : Doc) :
    (enrichDoc symbol timeframe n candle).lookup "symbol" = some (Value.str symbol) := by
  unfold enrichDoc
  rw [lookup_dictInsert_ne _ _ _ _ (by decide), lookup_dictInsert_ne _ _ _ _ (by decide),
    lookup_dictInsert_ne _ _ _ _ (by decide), lookup_dictInsert_self]

theorem enrichDoc_lookup_timeframe (symbol timeframe : String) (n : Int) (candle : Doc) :
    (enrichDoc symbol timeframe n candle).lookup "timeframe" = some (Value.str timeframe) := by
  unfold enrichDoc
  rw [lookup_dictInsert_ne _ _ _ _ (by decide), lookup_dictInsert_ne _ _ _ _ (by decide),
    lookup_dictInsert_self]

theorem enrichDoc_lookup_timestamp (symbol timeframe : String) (n : Int) (candle : Doc) :
    (enrichDoc symbol timeframe n candle).lookup "timestamp" = some (Value.int n) := by
  unfold enrichDoc
  rw [lookup_dictInsert_ne _ _ _ _ (by decide), lookup_dictInsert_self]

theorem enrichDoc_lookup_updated_at (symbol timeframe : String) (n : Int) (candle : Doc) :
    (enrichDoc symbol timeframe n candle).lookup "updated_at" = some Value.serverTimestamp := by
  unfold enrichDoc
  rw [lookup_dictInsert_self]

theorem enrichDoc_lookup_other (symbol timeframe : String) (n : Int) (candle : Doc)
    (k : String) (h1 : k ≠ "symbol") (h2 : k ≠ "timeframe") (h3 : k ≠ "timestamp")
    (h4 : k ≠ "updated_at") :
    (enrichDoc symbol timeframe n candle).lookup k = candle.lookup k := by
  unfold enrichDoc
  rw [lookup_dictInsert_ne _ _ _ _ h4, lookup_dictInsert_ne _ _ _ _ h3,
    lookup_dictInsert_ne _ _ _ _ h2, lookup_dictInsert_ne _ _ _ _ h1]

theorem enrichDoc_isSome (symbol timeframe : String) (n : Int) (candle : Doc) (k : String) :
    ((enrichDoc symbol timeframe n candle).lookup k).isSome = true ↔
      ((candle.lookup k).isSome = true ∨ k = "symbol" ∨ k = "timeframe" ∨
        k = "timestamp" ∨ k = "updated_at") := by
  unfold enrichDoc
  rw [isSome_lookup_dictInsert, isSome_lookup_dictInsert, isSome_lookup_dictInsert,
    isSome_lookup_dictInsert]
  tauto

/-! ### Helper lemmas: the slash replacement in the collection path -/

theorem pyReplaceAux_slash (fuel : Nat) (l : List Char) (hf : l.length ≤ fuel) :
    pyReplaceAux ['/'] ['_'] fuel l = l.map (fun c => if c = '/' then '_' else c) := by
  induction fuel generalizing l with
  | zero =>
    cases l with
    | nil => rfl
    | cons c cs => simp at hf
  | succ fuel ih =>
    cases l with
    | nil => rfl
    | cons c cs =>
      rw [pyReplaceAux, List.map_cons]
      by_cases hc : c = '/'
      · subst hc
        rw [if_pos (by simp [List.isPrefixOf])]
        simp only [List.length_cons, Nat.add_le_add_iff_right] at hf
        rw [if_pos rfl]
        simp only [List.length_cons, List.length_nil, List.cons_append, List.nil_append,
          Nat.sub_self, List.drop_zero]
        exact congrArg _ (ih cs hf)
      · rw [if_neg (by simp [List.isPrefixOf, Ne.symm hc])]
        simp only [List.length_cons, Nat.add_le_add_iff_right] at hf
        rw [if_neg (by simp [hc])]
        exact congrArg _ (ih cs hf)

theorem pyReplace_slash (s : String) : pyReplace s "/" "_" = specCharReplace s :=
  congrArg String.mk (pyReplaceAux_slash s.data.length s.data le_rfl)

/-! ### Helper lemmas: the commit chunking of the write loop -/

theorem commitsAux_eq_chunks {α : Type} (b : Nat) (l cur : List α) (hcur : cur.length < b) :
    commitsAux b l cur =
      if l.length = 0 ∧ cur.length = 0 then []
      else (cur ++ l.take (b - cur.length)) :: commitsAux b (l.drop (b - cur.length)) [] := by
  induction l generalizing cur with
  | nil =>
    rw [commitsAux]
    by_cases h0 : cur.length = 0
    · have hc1 : ¬0 < cur.length := by omega
      have hc2 : ([] : List α).length = 0 ∧ cur.length = 0 := by simp [h0]
      rw [if_neg hc1, if_pos hc2]
    · have hc1 : 0 < cur.length := by omega
      have hc2 : ¬(([] : List α).length = 0 ∧ cur.length = 0) := by simp [h0]
      rw [if_pos hc1, if_neg hc2]
      simp only [List.take_nil, List.drop_nil, List.append_nil]
      rw [commitsAux]
      have hc3 : ¬0 < ([] : List α).length := by simp
      rw [if_neg hc3]
  | cons e rest ih =>
    rw [commitsAux]
    have hne : ¬((e :: rest).length = 0 ∧ cur.length = 0) := by simp
    rw [if_neg hne]
    by_cases hb : b ≤ (cur ++ [e]).length
    · have hlen : b = cur.length + 1 := by
        simp only [List.length_append, List.length_cons, List.length_nil] at hb
        omega
      rw [if_pos hb]
      have hsub : b - cur.length = 1 := by omega
      rw [hsub]
      simp only [List.take_succ_cons, List.take_zero, List.drop_succ_cons, List.drop_zero]
    · have hlt : (cur ++ [e]).length < b := by omega
      rw [if_neg hb, ih (cur ++ [e]) hlt]
      have hne2 : ¬(rest.length = 0 ∧ (cur ++ [e]).length = 0) := by simp
      rw [if_neg hne2]
      obtain ⟨m, hm⟩ : ∃ m, b - cur.length = m + 1 := ⟨b - cur.length - 1, by omega⟩
      have hm' : b - (cur ++ [e]).length = m := by
        simp only [List.length_append, List.length_cons, List.length_nil]
        omega
      rw [hm, hm', List.take_succ_cons, List.drop_succ_cons, List.append_assoc]
      rfl

theorem pyBatches_unfold {α : Type} (b : Nat) (hb : 1 ≤ b) (l : List α) :
    pyBatches l b =
      if l.length = 0 then [] else l.take b :: pyBatches (l.drop b) b := by
  unfold pyBatches
  rw [commitsAux_eq_chunks b l [] (by simpa using hb)]
  by_cases h0 : l.length = 0
  · rw [if_pos (by simp [h0]), if_pos h0]
  · rw [if_neg (by simp [h0]), if_neg h0]
    simp

theorem pyBatches_length {α : Type} (b : Nat) (hb : 1 ≤ b) (l : List α) :
    (pyBatches l b).length = (l.length + b - 1) / b := by
  have main : ∀ n (l : List α), l.length = n →
      (pyBatches l b).length = (l.length + b - 1) / b := by
    intro n
    induction n using Nat.strong_induction_on with
    | _ n ih =>
      intro l hl
      rw [pyBatches_unfold b hb l]
      by_cases h0 : l.length = 0
      · rw [if_pos h0, h0]
        simp only [List.length_nil]
        rw [Nat.div_eq_of_lt (by omega)]
      · rw [if_neg h0]
        have hdl : (l.drop b).length = l.length - b := List.length_drop b l
        have hrec := ih (l.drop b).length (by omega) (l.drop b) rfl
        rw [List.length_cons, hrec, hdl]
        rcases le_or_lt l.length b with hle | hgt
        · have h1 : l.length - b = 0 := by omega
          have h4 : (0 + b - 1) / b = 0 := Nat.div_eq_of_lt (by omega)
          have h5 : (l.length + b - 1) / b = 1 :=
            Nat.div_eq_of_lt_le (by omega) (by omega)
          rw [h1, h4, h5]
        · have h2 : l.length - b + b - 1 = l.length - 1 := by omega
          have h3 : l.length + b - 1 = (l.length - 1) + b := by omega
          rw [h2, h3, Nat.add_div_right _ (by omega)]
  exact main l.length l rfl

theorem pyBatches_mem_length {α : Type} (b : Nat) (hb : 1 ≤ b) (l : List α) :
    ∀ c ∈ pyBatches l b, c.length ≤ b := by
  have main : ∀ n (l : List α), l.length = n → ∀ c ∈ pyBatches l b, c.length ≤ b := by
    intro n
    induction n using Nat.strong_induction_on with
    | _ n ih =>
      intro l hl c hc
      rw [pyBatches_unfold b hb l] at hc
      by_cases h0 : l.length = 0
      · rw [if_pos h0] at hc
        simp at hc
      · rw [if_neg h0] at hc
        rcases List.mem_cons.mp hc with hc | hc
        · subst hc
          rw [List.length_take]
          exact min_le_left _ _
        · exact ih (l.drop b).length (by rw [List.length_drop]; omega) (l.drop b) rfl c hc
  exact main l.length l rfl

theorem pyBatches_getLast {α : Type} (b : Nat) (hb : 1 ≤ b) (l : List α) :
    ∀ c, (pyBatches l b).getLast? = some c →
      c.length = if l.length % b = 0 then b else l.length % b := by
  have main : ∀ n (l : List α), l.length = n → ∀ c, (pyBatches l b).getLast? = some c →
      c.length = if l.length % b = 0 then b else l.length % b := by
    intro n
    induction n using Nat.strong_induction_on with
    | _ n ih =>
      intro l hl c hc
      rw [pyBatches_unfold b hb l] at hc
      by_cases h0 : l.length = 0
      · rw [if_pos h0] at hc
        simp at hc
      · rw [if_neg h0] at hc
        by_cases hle : l.length ≤ b
        · have hdrop : (l.drop b).length = 0 := by rw [List.length_drop]; omega
          rw [pyBatches_unfold b hb _, if_pos hdrop] at hc
          rw [List.getLast?_singleton] at hc
          injection hc with hc
          subst hc
          rw [List.length_take]
          rcases Nat.lt_or_ge l.length b with hlt | hge
          · rw [if_neg (by rw [Nat.mod_eq_of_lt hlt]; omega), Nat.mod_eq_of_lt hlt]
            omega
          · have hbl : l.length = b := by omega
            rw [hbl, if_pos (Nat.mod_self b)]
            omega
        · have hdrop : (l.drop b).length = l.length - b := List.length_drop b l
          have hne : (l.drop b).length ≠ 0 := by omega
          have hcons := pyBatches_unfold b hb (l.drop b)
          rw [if_neg hne] at hcons
          rw [hcons, List.getLast?_cons_cons, ← hcons] at hc
          have hrec := ih (l.drop b).length (by omega) (l.drop b) rfl c hc
          have hmod : l.length % b = (l.drop b).length % b := by
            rw [hdrop]
            conv_lhs => rw [← Nat.sub_add_cancel (by omega : b ≤ l.length)]
            rw [Nat.add_mod_right]
          rw [hmod]
          exact hrec
  exact main l.length l rfl

theorem commitsAux_flatten {α : Type} (b : Nat) (l cur : List α) :
    (commitsAux b l cur).flatten = cur ++ l := by
  induction l generalizing cur with
  | nil =>
    rw [commitsAux]
    by_cases h0 : 0 < cur.length
    · rw [if_pos h0]
      simp
    · rw [if_neg h0]
      have : cur = [] := by
        cases cur with
        | nil => rfl
        | cons x xs => simp at h0
      simp [this]
  | cons e rest ih =>
    rw [commitsAux]
    by_cases hb : b ≤ (cur ++ [e]).length
    · rw [if_pos hb, List.flatten_cons, ih [], List.nil_append, List.append_assoc]
      rfl
    · rw [if_neg hb, ih (cur ++ [e]), List.append_assoc]
      rfl

/-! ### Helper lemmas: the write loop against the pure chunking -/

theorem writeGo_ok_commits (path symbol timeframe : String) (b : Nat) (fa : Option Nat) :
    ∀ (entries : List (String × Doc)) (batch : List MarketWrite)
      (done : List (List MarketWrite)) (idx : Nat),
      (writeGo path symbol timeframe b fa entries batch done idx).2 = .ok →
      (writeGo path symbol timeframe b fa entries batch done idx).1 =
        done ++ commitsAux b (entries.map (stageWrite path symbol timeframe)) batch := by
  intro entries
  induction entries with
  | nil =>
    intro batch done idx hok
    simp only [writeGo] at hok ⊢
    rw [List.map_nil, commitsAux]
    by_cases h0 : 0 < batch.length
    · rw [if_pos h0] at hok
      rw [if_pos h0, if_pos h0]
      by_cases hfa : fa = some idx
      · rw [if_pos hfa] at hok
        exact absurd hok (by simp)
      · rw [if_neg hfa] at hok
        rw [if_neg hfa]
    · rw [if_neg h0] at hok
      rw [if_neg h0, if_neg h0, List.append_nil]
  | cons e rest ih =>
    intro batch done idx hok
    obtain ⟨ts, candle⟩ := e
    cases hp : pyInt ts with
    | none =>
      simp only [writeGo, hp] at hok
      exact absurd hok (by simp)
    | some n =>
      simp only [writeGo, hp] at hok ⊢
      have hstage : stageWrite path symbol timeframe (ts, candle) =
          (⟨path, ts, enrichDoc symbol timeframe n candle⟩ : MarketWrite) := by
        unfold stageWrite
        rw [hp]
        rfl
      rw [List.map_cons, hstage, commitsAux]
      by_cases hbl :
          b ≤ (batch ++ [(⟨path, ts, enrichDoc symbol timeframe n candle⟩ : MarketWrite)]).length
      · rw [if_pos hbl] at hok
        rw [if_pos hbl, if_pos hbl]
        by_cases hfa : fa = some idx
        · rw [if_pos hfa] at hok
          exact absurd hok (by simp)
        · rw [if_neg hfa] at hok
          rw [if_neg hfa, ih _ _ _ hok, List.append_assoc]
          rfl
      · rw [if_neg hbl] at hok
        rw [if_neg hbl, if_neg hbl]
        exact ih _ _ _ hok

theorem writeGo_no_typeError (path symbol timeframe : String) (b : Nat) (fa : Option Nat) :
    ∀ (entries : List (String × Doc)) (batch : List MarketWrite)
      (done : List (List MarketWrite)) (idx : Nat),
      (∀ tc ∈ entries, (pyInt tc.1).isSome = true) →
      (writeGo path symbol timeframe b fa entries batch done idx).2 ≠ .typeError := by
  intro entries
  induction entries with
  | nil =>
    intro batch done idx _ h
    simp only [writeGo] at h
    by_cases h0 : 0 < batch.length
    · rw [if_pos h0] at h
      by_cases hfa : fa = some idx
      · rw [if_pos hfa] at h
        exact absurd h (by simp)
      · rw [if_neg hfa] at h
        exact absurd h (by simp)
    · rw [if_neg h0] at h
      exact absurd h (by simp)
  | cons e rest ih =>
    intro batch done idx hkeys h
    obtain ⟨ts, candle⟩ := e
    cases hp : pyInt ts with
    | none =>
      have := hkeys (ts, candle) (List.mem_cons_self _ _)
      rw [hp] at this
      simp at this
    | some n =>
      simp only [writeGo, hp] at h
      have hrest : ∀ tc ∈ rest, (pyInt tc.1).isSome = true :=
        fun tc htc => hkeys tc (List.mem_cons_of_mem _ htc)
      by_cases hbl :
          b ≤ (batch ++ [(⟨path, ts, enrichDoc symbol timeframe n candle⟩ : MarketWrite)]).length
      · rw [if_pos hbl] at h
        by_cases hfa : fa = some idx
        · rw [if_pos hfa] at h
          exact absurd h (by simp)
        · rw [if_neg hfa] at h
          exact ih _ _ _ hrest h
      · rw [if_neg hbl] at h
        exact ih _ _ _ hrest h

theorem writeGo_typeError_of_bad (path symbol timeframe : String) (b : Nat) :
    ∀ (entries : List (String × Doc)) (batch : List MarketWrite)
      (done : List (List MarketWrite)) (idx : Nat),
      (∃ tc ∈ entries, pyInt tc.1 = none) →
      (writeGo path symbol timeframe b none entries batch done idx).2 = .typeError := by
  intro entries
  induction entries with
  | nil =>
    intro batch done idx hbad
    simp at hbad
  | cons e rest ih =>
    intro batch done idx hbad
    obtain ⟨ts, candle⟩ := e
    cases hp : pyInt ts with
    | none => simp only [writeGo, hp]
    | some n =>
      simp only [writeGo, hp]
      have hrest : ∃ tc ∈ rest, pyInt tc.1 = none := by
        rcases hbad with ⟨tc, htc, hbadtc⟩
        rcases List.mem_cons.mp htc with heq | hmem
        · subst heq
          rw [hp] at hbadtc
          exact absurd hbadtc (by simp)
        · exact ⟨tc, hmem, hbadtc⟩
      by_cases hbl :
          b ≤ (batch ++ [(⟨path, ts, enrichDoc symbol timeframe n candle⟩ : MarketWrite)]).length
      · rw [if_pos hbl]
        rw [if_neg (by simp)]
        exact ih _ _ _ hrest
      · rw [if_neg hbl]
        exact ih _ _ _ hrest

theorem writeGo_ok_parseable (path symbol timeframe : String) (b : Nat) (fa : Option Nat) :
    ∀ (entries : List (String × Doc)) (batch : List MarketWrite)
      (done : List (List MarketWrite)) (idx : Nat),
      (writeGo path symbol timeframe b fa entries batch done idx).2 = .ok →
      ∀ tc ∈ entries, (pyInt tc.1).isSome = true := by
  intro entries
  induction entries with
  | nil =>
    intro batch done idx _ tc htc
    simp at htc
  | cons e rest ih =>
    intro batch done idx hok tc htc
    obtain ⟨ts, candle⟩ := e
    cases hp : pyInt ts with
    | none =>
      simp only [writeGo, hp] at hok
      exact absurd hok (by simp)
    | some n =>
      simp only [writeGo, hp] at hok
      rcases List.mem_cons.mp htc with heq | hmem
      · subst heq
        rw [hp]
        rfl
      · by_cases hbl :
            b ≤ (batch ++ [(⟨path, ts, enrichDoc symbol timeframe n candle⟩ : MarketWrite)]).length
        · rw [if_pos hbl] at hok
          by_cases hfa : fa = some idx
          · rw [if_pos hfa] at hok
            exact absurd hok (by simp)
          · rw [if_neg hfa] at hok
            exact ih _ _ _ hok tc hmem
        · rw [if_neg hbl] at hok
          exact ih _ _ _ hok tc hmem

/-! ### Claim theorems -/

/-- C2: for every prefix, symbol and timeframe, `write_market_data` and
`read_market_data` derive the same collection path, and that path equals
the documented scheme `{prefix}/market_data/{symbol with every "/"
replaced by "_"}/{timeframe}`. -/
theorem C2_collection_path_scheme (pfx symbol timeframe : String) :
    writeCollectionPath pfx symbol timeframe = readCollectionPath pfx symbol timeframe ∧
    writeCollectionPath pfx symbol timeframe = specCollectionPath pfx symbol timeframe := by
  refine ⟨rfl, ?_⟩
  unfold writeCollectionPath specCollectionPath
  rw [pyReplace_slash]

/-- C1: every call to `write_market_data` with `N` data entries and a
positive `batch_size` `B` that succeeds (returns `True`) issues exactly
`ceil(N/B)` batch commits, each holding at most `B` documents, and the
last commit holds `N mod B` documents (`B` when `B` divides `N`). -/
theorem C1_write_batching (pfx symbol timeframe : String) (data : List (String × Doc))
    (b : Nat) (fa : Option Nat) (hb : 1 ≤ b)
    (hok : (write_market_data pfx symbol timeframe data b fa).ret = Except.ok true) :
    (write_market_data pfx symbol timeframe data b fa).commits.length =
      (data.length + b - 1) / b ∧
    (∀ c ∈ (write_market_data pfx symbol timeframe data b fa).commits, c.length ≤ b) ∧
    (∀ c, (write_market_data pfx symbol timeframe data b fa).commits.getLast? = some c →
      c.length = if data.length % b = 0 then b else data.length % b) := by
  have hst : (writeGo (writeCollectionPath pfx symbol timeframe) symbol timeframe
      b fa data [] [] 0).2 = WStatus.ok := by
    cases hcase : (writeGo (writeCollectionPath pfx symbol timeframe) symbol timeframe
        b fa data [] [] 0).2 with
    | ok => rfl
    | storeFail =>
      simp only [write_market_data, hcase] at hok
      exact absurd hok (by simp)
    | typeError =>
      simp only [write_market_data, hcase] at hok
      exact absurd hok (by simp)
  have hcommits : (write_market_data pfx symbol timeframe data b fa).commits =
      pyBatches
        (data.map (stageWrite (writeCollectionPath pfx symbol timeframe) symbol timeframe)) b := by
    simp only [write_market_data, hst]
    rw [writeGo_ok_commits _ _ _ _ _ _ _ _ _ hst, List.nil_append]
    rfl
  rw [hcommits]
  have hlen :
      (data.map (stageWrite (writeCollectionPath pfx symbol timeframe) symbol timeframe)).length =
        data.length := List.length_map _ _
  refine ⟨?_, ?_, ?_⟩
  · rw [pyBatches_length b hb _, hlen]
  · exact fun c hc => pyBatches_mem_length b hb _ c hc
  · intro c hc
    have h := pyBatches_getLast b hb _ c hc
    rw [hlen] at h
    exact h

/-- Witness for C1: three records with batch size two succeed and produce
exactly two commits, the last holding one document. -/
theorem C1_write_batching_witness :
    (write_market_data "trading_system" "BTC/USDT" "1h"
      [("1", []), ("2", []), ("3", [])] 2 none).commits.length = 2 := by
  have h := C1_write_batching "trading_system" "BTC/USDT" "1h"
    [("1", []), ("2", []), ("3", [])] 2 none (by decide) rfl
  simpa using h.1

/-- C3 (amended): on a successful write, every data entry is stored as a
document keyed by the string form of its timestamp, holding the four
enrichment fields (`symbol`, `timeframe`, integer `timestamp`,
server-assigned `updated_at`) and every original candle field EXCEPT those
named like an enrichment field, which the enrichment overwrites; the
document's key set is exactly the candle keys plus the four enrichment
keys. -/
theorem C3_document_shape (pfx symbol timeframe : String) (data : List (String × Doc))
    (b : Nat) (fa : Option Nat)
    (hok : (write_market_data pfx symbol timeframe data b fa).ret = Except.ok true) :
    ∀ tc ∈ data, ∃ n : Int, pyInt tc.1 = some n ∧
      ∃ w ∈ (write_market_data pfx symbol timeframe data b fa).commits.flatten,
        w.docId = tc.1 ∧
        w.doc.lookup "symbol" = some (Value.str symbol) ∧
        w.doc.lookup "timeframe" = some (Value.str timeframe) ∧
        w.doc.lookup "timestamp" = some (Value.int n) ∧
        w.doc.lookup "updated_at" = some Value.serverTimestamp ∧
        (∀ k, k ≠ "symbol" → k ≠ "timeframe" → k ≠ "timestamp" → k ≠ "updated_at" →
          w.doc.lookup k = tc.2.lookup k) ∧
        (∀ k, ((w.doc.lookup k).isSome = true) ↔
          ((tc.2.lookup k).isSome = true ∨ k = "symbol" ∨ k = "timeframe" ∨
            k = "timestamp" ∨ k = "updated_at")) := by
  intro tc htc
  have hst : (writeGo (writeCollectionPath pfx symbol timeframe) symbol timeframe
      b fa data [] [] 0).2 = WStatus.ok := by
    cases hcase : (writeGo (writeCollectionPath pfx symbol timeframe) symbol timeframe
        b fa data [] [] 0).2 with
    | ok => rfl
    | storeFail =>
      simp only [write_market_data, hcase] at hok
      exact absurd hok (by simp)
    | typeError =>
      simp only [write_market_data, hcase] at hok
      exact absurd hok (by simp)
  have hsome := writeGo_ok_parseable _ _ _ _ _ _ _ _ _ hst tc htc
  rcases Option.isSome_iff_exists.mp hsome with ⟨n, hn⟩
  refine ⟨n, hn, ?_⟩
  have hflat : (write_market_data pfx symbol timeframe data b fa).commits.flatten =
      data.map (stageWrite (writeCollectionPath pfx symbol timeframe) symbol timeframe) := by
    simp only [write_market_data, hst]
    rw [writeGo_ok_commits _ _ _ _ _ _ _ _ _ hst, List.nil_append]
    exact commitsAux_flatten b _ []
  refine ⟨stageWrite (writeCollectionPath pfx symbol timeframe) symbol timeframe tc, ?_, ?_⟩
  · rw [hflat]
    exact List.mem_map_of_mem _ htc
  · have hdoc : (stageWrite (writeCollectionPath pfx symbol timeframe) symbol timeframe tc).doc =
        enrichDoc symbol timeframe n tc.2 := by
      unfold stageWrite
      rw [hn]
      rfl
    refine ⟨rfl, ?_, ?_, ?_, ?_, ?_, ?_⟩
    · rw [hdoc]
      exact enrichDoc_lookup_symbol symbol timeframe n tc.2
    · rw [hdoc]
      exact enrichDoc_lookup_timeframe symbol timeframe n tc.2
    · rw [hdoc]
      exact enrichDoc_lookup_timestamp symbol timeframe n tc.2
    · rw [hdoc]
      exact enrichDoc_lookup_updated_at symbol timeframe n tc.2
    · intro k h1 h2 h3 h4
      rw [hdoc]
      exact enrichDoc_lookup_other symbol timeframe n tc.2 k h1 h2 h3 h4
    · intro k
      rw [hdoc]
      exact enrichDoc_isSome symbol timeframe n tc.2 k

/-- Witness for C3 (amended): a one-record write stores a document with id
`"7"` and integer timestamp field `7`. -/
theorem C3_document_shape_witness :
    (write_market_data "trading_system" "BTC/USDT" "1h"
        [("7", [("open", Value.int 1)])] 500 none).ret = Except.ok true ∧
    ∃ w ∈ (write_market_data "trading_system" "BTC/USDT" "1h"
        [("7", [("open", Value.int 1)])] 500 none).commits.flatten,
      w.docId = "7" ∧ w.doc.lookup "timestamp" = some (Value.int 7) ∧
        w.doc.lookup "open" = some (Value.int 1) := by
  have h := C3_document_shape "trading_system" "BTC/USDT" "1h"
    [("7", [("open", Value.int 1)])] 500 none rfl
  have h7 := h ("7", [("open", Value.int 1)]) (by simp)
  rcases h7 with ⟨n, hn, w, hw, hid, _, _, hts, _, hother, _⟩
  have hn7 : n = 7 := by
    have : pyInt "7" = some 7 := by decide
    rw [this] at hn
    injection hn with hn
    exact hn.symm
  subst hn7
  refine ⟨rfl, w, hw, hid, hts, ?_⟩
  rw [hother "open" (by decide) (by decide) (by decide) (by decide)]
  rfl

/-- Counterexample for C3 as stated: when the candle payload itself has a
field named `symbol`, the stored document does NOT contain that original
candle field — the enrichment overwrites it — so the stored document is
not the original payload plus the four enrichment fields. -/
theorem C3_counterexample :
    (write_market_data "trading_system" "BTC/USDT" "1h"
        [("1", [("symbol", Value.int 5)])] 500 none).ret = Except.ok true ∧
    (write_market_data "trading_system" "BTC/USDT" "1h"
        [("1", [("symbol", Value.int 5)])] 500 none).commits.flatten.length = 1 ∧
    ∀ w ∈ (write_market_data "trading_system" "BTC/USDT" "1h"
        [("1", [("symbol", Value.int 5)])] 500 none).commits.flatten,
      w.doc.lookup "symbol" ≠ some (Value.int 5) :=
  ⟨rfl, rfl, by decide⟩

/-- C4: writing an empty data mapping issues no commits and returns
`True`. -/
theorem C4_empty_write (pfx symbol timeframe : String) (b : Nat) (fa : Option Nat) :
    (write_market_data pfx symbol timeframe [] b fa).commits = [] ∧
    (write_market_data pfx symbol timeframe [] b fa).ret = Except.ok true :=
  ⟨rfl, rfl⟩

/-- C5: when every timestamp key parses, a store exception raised during
the write is caught, logged, and turned into a returned `False`; when the
store does not raise, the call returns `True` and logs the number of
records written. -/
theorem C5_store_error_handling (pfx symbol timeframe : String) (data : List (String × Doc))
    (b : Nat) (fa : Option Nat)
    (hkeys : ∀ tc ∈ data, (pyInt tc.1).isSome = true) :
    ((write_market_data pfx symbol timeframe data b fa).raisedStore = true →
      (write_market_data pfx symbol timeframe data b fa).ret = Except.ok false ∧
      (write_market_data pfx symbol timeframe data b fa).logError = true) ∧
    ((write_market_data pfx symbol timeframe data b fa).raisedStore = false →
      (write_market_data pfx symbol timeframe data b fa).ret = Except.ok true ∧
      (write_market_data pfx symbol timeframe data b fa).logInfo = some data.length) := by
  cases hst : (writeGo (writeCollectionPath pfx symbol timeframe) symbol timeframe
      b fa data [] [] 0).2 with
  | ok =>
    constructor
    · intro hr
      simp only [write_market_data, hst] at hr
      exact absurd hr (by simp)
    · intro _
      refine ⟨?_, ?_⟩ <;> simp [write_market_data, hst]
  | storeFail =>
    constructor
    · intro _
      refine ⟨?_, ?_⟩ <;> simp [write_market_data, hst]
    · intro hr
      simp only [write_market_data, hst] at hr
      exact absurd hr (by simp)
  | typeError =>
    exact absurd hst (writeGo_no_typeError _ _ _ _ _ _ _ _ _ hkeys)

/-- Witness for C5: with two parseable keys and the store raising at the
first commit, the call reports failure with an error log; with no store
failure it reports success and logs the record count. -/
theorem C5_store_error_handling_witness :
    ((write_market_data "trading_system" "BTC/USDT" "1h"
        [("1", []), ("2", [])] 1 (some 0)).ret = Except.ok false ∧
      (write_market_data "trading_system" "BTC/USDT" "1h"
        [("1", []), ("2", [])] 1 (some 0)).logError = true) ∧
    ((write_market_data "trading_system" "BTC/USDT" "1h"
        [("1", []), ("2", [])] 1 none).ret = Except.ok true ∧
      (write_market_data "trading_system" "BTC/USDT" "1h"
        [("1", []), ("2", [])] 1 none).logInfo = some 2) := by
  constructor
  · exact (C5_store_error_handling "trading_system" "BTC/USDT" "1h"
      [("1", []), ("2", [])] 1 (some 0) (by decide)).1 rfl
  · exact (C5_store_error_handling "trading_system" "BTC/USDT" "1h"
      [("1", []), ("2", [])] 1 none (by decide)).2 rfl

theorem fc_new_ok_inst (c : Bool) (s : FCState) (i : FInstance)
    (h : (fc_new c s).2 = .ok i) : ((fc_new c s).1).inst = some i := by
  cases hinst : s.inst with
  | some j =>
    simp only [fc_new, hinst] at h ⊢
    injection h with h
    rw [h]
  | none =>
    cases happ : s.appsInit with
    | true =>
      simp only [fc_new, hinst, happ] at h ⊢
      injection h with h
      rw [← h]
    | false =>
      cases hc : c with
      | true =>
        simp only [fc_new, hinst, happ, hc] at h ⊢
        injection h with h
        rw [← h]
      | false =>
        simp only [fc_new, hinst, happ, hc] at h
        exact absurd h (by simp)

/-- C6: constructing the store client a second time returns the same
instance (hence the same underlying Firestore connection) that the first
successful construction returned, with the process state — in particular
the count of `_initialize` runs — unchanged. -/
theorem C6_singleton_reuse (c1 c2 : Bool) (s : FCState) (i : FInstance)
    (hok : (fc_new c1 s).2 = .ok i) :
    fc_new c2 ((fc_new c1 s).1) = ((fc_new c1 s).1, .ok i) ∧
    (fc_new c2 ((fc_new c1 s).1)).1.initCalls = ((fc_new c1 s).1).initCalls := by
  have hinst := fc_new_ok_inst c1 s i hok
  have hmain : fc_new c2 ((fc_new c1 s).1) = ((fc_new c1 s).1, .ok i) := by
    generalize hS : (fc_new c1 s).1 = S at hinst
    simp only [fc_new, hinst]
  exact ⟨hmain, by rw [hmain]⟩

/-- Witness for C6: from a fresh process state, a successful first
construction followed by a second construction returns the same instance
and leaves the state untouched. -/
theorem C6_singleton_reuse_witness :
    (fc_new true ⟨none, false, 0, 0, 0⟩).2 = .ok ⟨0, some 0⟩ ∧
    fc_new false ((fc_new true ⟨none, false, 0, 0, 0⟩).1) =
      ((fc_new true ⟨none, false, 0, 0, 0⟩).1, .ok ⟨0, some 0⟩) :=
  ⟨rfl, (C6_singleton_reuse true false ⟨none, false, 0, 0, 0⟩ ⟨0, some 0⟩ rfl).1⟩

/-- C7: with the credential file missing, configuration validation emits a
warning (and, being a total function into a warning list, cannot raise),
while first-time store-client construction in a fresh process raises
`ConnectionError`. -/
theorem C7_missing_cred_severity (api_key api_secret : Option String) (st : FCState)
    (h1 : st.inst = none) (h2 : st.appsInit = false) :
    ConfigWarning.credMissing ∈ config_validate false api_key api_secret ∧
    (fc_new false st).2 = .error ConnErr.connectionError := by
  constructor
  · simp [config_validate]
  · simp only [fc_new, h1, h2, Bool.false_eq_true, if_false]

/-- Witness for C7: the fresh process state with no credentials. -/
theorem C7_missing_cred_severity_witness :
    ((⟨none, false, 0, 0, 0⟩ : FCState).inst = none ∧
      (⟨none, false, 0, 0, 0⟩ : FCState).appsInit = false) ∧
    (ConfigWarning.credMissing ∈ config_validate false none none ∧
      (fc_new false ⟨none, false, 0, 0, 0⟩).2 = .error ConnErr.connectionError) :=
  ⟨⟨rfl, rfl⟩, C7_missing_cred_severity none none ⟨none, false, 0, 0, 0⟩ rfl rfl⟩

/-- C8: `read_market_data` returns at most `limit` records, ordered on the
requested field in descending order. The query execution is modelled from
the spec because the source file is truncated after the query is built. -/
theorem C8_read_limit_order (store : String → List Doc) (pfx symbol timeframe : String)
    (limit : Nat) (order_by : String) :
    (read_market_data store pfx symbol timeframe limit order_by).length ≤ limit ∧
    List.Sorted (fieldDesc order_by) (read_market_data store pfx symbol timeframe limit order_by) := by
  constructor
  · unfold read_market_data
    rw [List.length_take]
    exact min_le_left _ _
  · unfold read_market_data
    haveI htot : IsTotal Doc (fieldDesc order_by) :=
      ⟨fun d1 d2 => le_total (fieldInt order_by d2) (fieldInt order_by d1)⟩
    haveI htrans : IsTrans Doc (fieldDesc order_by) :=
      ⟨fun _ _ _ h1 h2 => le_trans h2 h1⟩
    exact List.Pairwise.sublist (List.take_sublist _ _)
      (List.sorted_insertionSort (fieldDesc order_by) _)

/-- C9: a data key whose string form does not parse as an integer makes
`write_market_data` raise the `ValueError` from `int(timestamp)` (here:
with no store failure, so nothing pre-empts the conversion), rather than
returning `False` — only the store's error categories are caught. -/
theorem C9_unparseable_key_raises (pfx symbol timeframe : String)
    (data : List (String × Doc)) (b : Nat)
    (hbad : ∃ tc ∈ data, pyInt tc.1 = none) :
    (write_market_data pfx symbol timeframe data b none).ret =
      Except.error PyError.valueError := by
  have hst := writeGo_typeError_of_bad (writeCollectionPath pfx symbol timeframe)
    symbol timeframe b data [] [] 0 hbad
  simp only [write_market_data, hst]

/-- Witness for C9: the key `"x"` does not parse, and the write call ends
in the propagated `ValueError` instead of a boolean. -/
theorem C9_unparseable_key_raises_witness :
    (∃ tc ∈ [("x", ([] : Doc))], pyInt tc.1 = none) ∧
    (write_market_data "trading_system" "BTC/USDT" "1h" [("x", [])] 500 none).ret =
      Except.error PyError.valueError :=
  ⟨by decide, C9_unparseable_key_raises "trading_system" "BTC/USDT" "1h"
    [("x", [])] 500 (by decide)⟩

/-- C10: when the first construction of the store client fails with
`ConnectionError`, the singleton slot keeps the partially initialized
instance (its `_client` slot empty); every later construction returns that
broken instance with the state unchanged (no initialization retry), and
its `client` property raises `RuntimeError`. -/
theorem C10_broken_singleton (c c' : Bool) (s : FCState) (e : ConnErr)
    (hfail : (fc_new c s).2 = .error e) :
    ∃ i, ((fc_new c s).1).inst = some i ∧ i.clientSlot = none ∧
      fc_new c' ((fc_new c s).1) = ((fc_new c s).1, .ok i) ∧
      clientProperty i = .error RtErr.runtimeError := by
  have hinst : ((fc_new c s).1).inst = some ⟨s.nextId, none⟩ := by
    cases hins : s.inst with
    | some j =>
      simp only [fc_new, hins] at hfail
      exact absurd hfail (by simp)
    | none =>
      cases happ : s.appsInit with
      | true =>
        simp only [fc_new, hins, happ] at hfail
        exact absurd hfail (by simp)
      | false =>
        cases hc : c with
        | true =>
          simp only [fc_new, hins, happ, hc] at hfail
          exact absurd hfail (by simp)
        | false =>
          simp only [fc_new, hins, happ, hc]
  refine ⟨⟨s.nextId, none⟩, hinst, rfl, ?_, rfl⟩
  generalize hS : (fc_new c s).1 = S at hinst
  simp only [fc_new, hinst]

/-- Witness for C10: failing first construction in a fresh credential-less
process leaves a broken singleton that later constructions return as-is. -/
theorem C10_broken_singleton_witness :
    (fc_new false ⟨none, false, 0, 0, 0⟩).2 = .error ConnErr.connectionError ∧
    ∃ i, ((fc_new false ⟨none, false, 0, 0, 0⟩).1).inst = some i ∧
      i.clientSlot = none ∧
      fc_new true ((fc_new false ⟨none, false, 0, 0, 0⟩).1) =
        ((fc_new false ⟨none, false, 0, 0, 0⟩).1, .ok i) ∧
      clientProperty i = .error RtErr.runtimeError :=
  ⟨rfl, C10_broken_singleton false true ⟨none, false, 0, 0, 0⟩ ConnErr.connectionError rfl⟩

end TradingNet
